import Mathlib

/-!
Verification of the TTL2 random-map-script preprocessor
(`src/preprocessor/src/lib.rs`) against its natural-language specification.

Shallow embedding conventions:
* A Rust `String` / `&str` line is modelled as a `List Char` (`Line`).
  Rust byte indices coincide with character indices for ASCII text; the
  embedding works at the character level and models `str::to_uppercase` /
  `to_lowercase` with the per-character ASCII maps (exact for ASCII input).
* Fallible code (`unwrap`, `assert!`, out-of-range slicing) is modelled with
  `Option`: `none` is a panic.
* `f64` parsing appears only as `parse::<f64>().unwrap()`; floating-point
  values themselves never influence the control flow verified here, so the
  embedding checks parseability against Rust's `f64` textual grammar and
  hands the textual argument to the opaque macro library (`MacroLib`).
-/

/-- A single script line, as a sequence of characters. -/
abbrev Line := List Char

/-- Shorthand turning a string literal into a `Line`. -/
def lc (s : String) : Line := s.data

/-- The Unicode `White_Space` set used by Rust's `char::is_whitespace`
(and hence `str::trim` / `split_whitespace`). -/
def isWsChar (c : Char) : Bool :=
  c = ' ' || c = '\t' || c = '\n' || (c.toNat ≥ 0xB && c.toNat ≤ 0xD) ||
  c.toNat = 0x85 || c.toNat = 0xA0 || c.toNat = 0x1680 ||
  (c.toNat ≥ 0x2000 && c.toNat ≤ 0x200A) ||
  c.toNat = 0x2028 || c.toNat = 0x2029 || c.toNat = 0x202F ||
  c.toNat = 0x205F || c.toNat = 0x3000

/-- `str::trim`: removes leading and trailing whitespace. -/
def trimLine (s : Line) : Line :=
  ((s.dropWhile isWsChar).reverse.dropWhile isWsChar).reverse

/-- Per-character model of `str::to_uppercase` (exact on ASCII). -/
def toUpperLine (s : Line) : Line := s.map Char.toUpper

/-- Model of `str::eq_ignore_ascii_case`. -/
def eqIgnoreAsciiCase (a b : Line) : Bool :=
  a.map Char.toLower == b.map Char.toLower

/-- `str::find(pat)` for a substring pattern: index of the first occurrence
of `pat` in `s`, if any. -/
def findSub (pat : Line) : Line → Option Nat
  | [] => if pat.isPrefixOf ([] : Line) then some 0 else none
  | c :: t =>
    if pat.isPrefixOf (c :: t) then some 0 else (findSub pat t).map (· + 1)

/-- `str::contains(pat)` for a substring pattern. -/
def containsSub (pat s : Line) : Bool := (findSub pat s).isSome

/-- `str::find(c)` for a single character. -/
def findChar (c : Char) (s : Line) : Option Nat := s.findIdx? (· = c)

/-- `str::rfind(c)` for a single character: index of the last occurrence. -/
def rfindChar (c : Char) (s : Line) : Option Nat :=
  (List.range s.length).foldl
    (fun acc i => if s.get? i = some c then some i else acc) none

/-- Rust slice `&s[a..b]`: panics (`none`) unless `a ≤ b ≤ s.length`. -/
def rustSlice (s : Line) (a b : Nat) : Option Line :=
  if a ≤ b ∧ b ≤ s.length then some ((s.take b).drop a) else none

/-- Numeric value of a run of decimal digits. -/
def digitsToNat (s : Line) : Nat :=
  s.foldl (fun n c => 10 * n + (c.toNat - 48)) 0

/-- Model of Rust's `str::parse::<u32>()`: an optional `+` sign, then at
least one decimal digit, value below `2^32`. -/
def parseU32 (s : Line) : Option Nat :=
  let t := match s with
    | '+' :: r => r
    | _ => s
  if t ≠ [] ∧ t.all Char.isDigit then
    let v := digitsToNat t
    if v < 4294967296 then some v else none
  else none

/-- Model of Rust's `str::parse::<usize>()` on a 64-bit target. -/
def parseUsize (s : Line) : Option Nat :=
  let t := match s with
    | '+' :: r => r
    | _ => s
  if t ≠ [] ∧ t.all Char.isDigit then
    let v := digitsToNat t
    if v < 18446744073709551616 then some v else none
  else none

/-- Mantissa part of Rust's `f64` grammar: digits with at most one dot and
at least one digit overall. -/
def mantissaOk (m : Line) : Bool :=
  match m.findIdx? (· = '.') with
  | some i =>
    let a := m.take i
    let b := m.drop (i + 1)
    (a ++ b) ≠ [] && (a ++ b).all Char.isDigit
  | none => m ≠ [] && m.all Char.isDigit

/-- Exponent part of Rust's `f64` grammar: optional sign, then digits. -/
def exponentOk (e : Line) : Bool :=
  let t := match e with
    | '+' :: r => r
    | '-' :: r => r
    | _ => e
  t ≠ [] && t.all Char.isDigit

/-- Acceptance model of Rust's `str::parse::<f64>()` (the parsed value is
never needed by the verified control flow, only success or failure). -/
def parseF64ok (s : Line) : Bool :=
  let t := match s with
    | '+' :: r => r
    | '-' :: r => r
    | _ => s
  let low := t.map Char.toLower
  if low = lc "inf" || low = lc "infinity" || low = lc "nan" then true
  else
    match t.findIdx? (fun c => c = 'e' || c = 'E') with
    | some i => mantissaOk (t.take i) && exponentOk (t.drop (i + 1))
    | none => mantissaOk t

/-- `Nat` rendered in decimal, as Rust's `Display` for integers. -/
def natLine (n : Nat) : Line := (Nat.repr n).data

/-- `Vec<String>::join("\n")` at the character level. -/
def joinNL : List Line → Line
  | [] => []
  | [l] => l
  | l :: rest => l ++ '\n' :: joinNL rest

/-- `str::split('\n')`: always returns at least one (possibly empty) piece. -/
def splitNL : Line → List Line
  | [] => [[]]
  | c :: t =>
    if c = '\n' then [] :: splitNL t
    else
      match splitNL t with
      | [] => [[c]]
      | w :: rest => (c :: w) :: rest

/-- `probs` (lib.rs 332-343): divides `n` into `m` numbers of equal
probability; the first `n % m` numbers have value `n / m + 1`, the
remaining have value `n / m`. The two `for` loops push exactly these
replicated values in order. -/
def probs (n m : Nat) : List Nat :=
  List.replicate (n % m) (n / m + 1) ++ List.replicate (m - n % m) (n / m)

/-- `next_label` (lib.rs 358-369): successor of a label. `none` input is
Rust's `&None` (no prior label). The result is `none` exactly when the Rust
code would panic (indexing the last byte of an empty label). The source
reads the last byte; for the ASCII labels this function is used with, the
last byte is the last character. -/
def next_label : Option Line → Option Line
  | none => some (lc "_A")
  | some l =>
    match l.getLast? with
    | none => none
    | some c =>
      if c = 'Z' then some (l ++ [ 'A'])
      else some (l.dropLast ++ [Char.ofNat (c.toNat + 1)])

/-- The list of the first `n` labels produced by successive `next_label`
calls starting from no prior label (each call is fed the previous result). -/
def labelList : Nat → List Line
  | 0 => []
  | n + 1 =>
    let prev := labelList n
    match next_label prev.getLast? with
    | some l => prev ++ [l]
    | none => prev

/-- `RepeatLines` (lib.rs 247-255): a repeat count together with the
accumulated body lines. -/
structure RepeatLines where
  count : Nat
  lines : List Line
deriving DecidableEq

/-- `RepeatLines::get_text` (lib.rs 274-281): the body joined by newlines
and repeated `count` times; the empty string when `count = 0`. The source
computes `joined ++ ("\n" ++ joined).repeat (count - 1)`. -/
def RepeatLines.get_text (rl : RepeatLines) : Line :=
  if rl.count = 0 then []
  else
    let joined := joinNL rl.lines
    joined ++ (List.replicate (rl.count - 1) ('\n' :: joined)).flatten

/-- `parse_repeat_count` (lib.rs 287-292): the `usize` between the first
`(` and the last `)`; `none` models the `unwrap` panics. -/
def parse_repeat_count (repeat_line : Line) : Option Nat := do
  let i ← findChar '(' repeat_line
  let j ← rfindChar ')' repeat_line
  let s ← rustSlice repeat_line (i + 1) j
  parseUsize s

/-- One iteration of the `repeat_lines` loop (lib.rs 305-322).
The state is the stack of open repeat frames (head = top of stack) and the
lines already written to the top-level output. -/
def repeatStep (st : List RepeatLines × List Line) (line : Line) :
    Option (List RepeatLines × List Line) :=
  let (repeats, output) := st
  if (lc "#REPEAT(").isPrefixOf (toUpperLine line) then
    match parse_repeat_count line with
    | none => none
    | some c => some (RepeatLines.mk c [] :: repeats, output)
  else if eqIgnoreAsciiCase line (lc "#END_REPEAT") then
    match repeats with
    | [] => none
    | last :: rest =>
      let texts := splitNL last.get_text
      match rest with
      | prev :: rest2 =>
        some (RepeatLines.mk prev.count (prev.lines ++ texts) :: rest2, output)
      | [] => some ([], output ++ texts)
  else
    match repeats with
    | top :: rest => some (RepeatLines.mk top.count (top.lines ++ [line]) :: rest, output)
    | [] => some (repeats, output ++ [line])

/-- `repeat_lines` (lib.rs 296-328): expands all repeat blocks; `none`
models the panics (`expect` on a stray `#END_REPEAT`, the `unwrap`s of
`parse_repeat_count`, and the final `assert!(repeats.is_empty())`). -/
def repeat_lines (lines : List Line) : Option (List Line) := do
  let (repeats, output) ← lines.foldlM repeatStep ([], [])
  if repeats = [] then some output else none

/-- Loop state of `assign_objects` (lib.rs 425-428). -/
structure AOState where
  output : List Line
  object : List Line
  every_player : Bool
  num_players : Nat
deriving DecidableEq

/-- One iteration of the `assign_objects` loop (lib.rs 429-473). `none`
models the `assert!` panic on `#SET_PLACE_FOR_EVERY_PLAYER` outside of a
`create_object` command. -/
def assignStep (st : AOState) (line : Line) : Option AOState :=
  if st.object = [] then
    if eqIgnoreAsciiCase line (lc "#SET_PLACE_FOR_EVERY_PLAYER") then none
    else if (lc "create_object").isPrefixOf line then
      some { st with object := [line] }
    else some { st with output := st.output ++ [line] }
  else if line = lc "\x7d" then
    if st.every_player then
      let copies := (List.range st.num_players).foldl
        (fun acc k =>
          acc ++ st.object ++
            [lc "place_on_specific_land_id " ++ natLine (k + 1), lc "\x7d"]) []
      some { st with output := st.output ++ copies, object := [],
                     every_player := false }
    else
      some { st with output := st.output ++ st.object ++ [lc "\x7d"],
                     object := [], every_player := false }
  else if line = lc "#SET_PLACE_FOR_EVERY_PLAYER" then
    some { st with every_player := true, num_players := 2 }
  else if line = lc "#PLACE8" then
    some { st with every_player := true, num_players := 8 }
  else some { st with object := st.object ++ [line] }

/-- Initial state of the `assign_objects` loop. -/
def assignInit : AOState := ⟨[], [], false, 2⟩

/-- `assign_objects` (lib.rs 417-476). `none` models the two `assert!`
panics (macro outside an object, unclosed object at end of input). -/
def assign_objects (lines : List Line) : Option (List Line) := do
  let st ← lines.foldlM assignStep assignInit
  if st.object = [] then some st.output else none

/-- `extract_random_line` (lib.rs 401-411): `(instruction, min, max)` from a
line of the form `instruction rnd(min,max)`. `none` models the `unwrap`
panics on the four delimiter searches, the two slicings, and the two `u32`
parses. -/
def extract_random_line (line : Line) : Option (Line × Nat × Nat) := do
  let h ← findChar ' ' line
  let i ← findChar '(' line
  let j ← findChar ',' line
  let k ← findChar ')' line
  let instruction := line.take h
  let minS ← rustSlice line (i + 1) j
  let maxS ← rustSlice line (j + 1) k
  let mn ← parseU32 minS
  let mx ← parseU32 maxS
  some (instruction, mn, mx)

/-- `prob_definitions` (lib.rs 375-386): the weighted-random preamble block
for a `rnd(min,max)` instruction; `none` models the `assert!(min < max)`. -/
def prob_definitions (label : Line) (mn mx : Nat) : Option Line :=
  if mn < mx then
    let length := mx + 1 - mn
    let percents := probs 100 length
    some (joinNL (lc "start_random" ::
      percents.enum.map (fun kp =>
        lc "percent_chance " ++ natLine kp.2 ++ lc " #define " ++ label ++
          lc "_" ++ natLine kp.1) ++
      [lc "end_random"]))
  else none

/-- `prob_conditional` (lib.rs 389-398): the `if`/`elseif`/`endif` chain for
the label values `min..=max`. -/
def prob_conditional (label instruction : Line) (mn mx : Nat) : Line :=
  joinNL ((List.range (mx + 1 - mn)).map (fun k =>
      (if k = 0 then lc "if" else lc "elseif") ++ lc " " ++ label ++ lc "_" ++
        natLine k ++ '\n' :: (instruction ++ lc " " ++ natLine (mn + k))) ++
    [lc "endif"])

/-- The combined failure condition of the `rnd`-line handling in
`extract_rnd` (lib.rs 510-511): the line fails to parse as an
`instruction rnd(min,max)` expression, or violates `min < max`. -/
def rndFatalCheck (line : Line) : Option Unit := do
  let (_instr, mn, mx) ← extract_random_line line
  if mn < mx then some () else none

/-- Loop state of `extract_rnd` (lib.rs 492-495). -/
structure RndState where
  preamble : List Line
  body : List Line
  label : Line
  finished_land : Bool
deriving DecidableEq

/-- One iteration of the `extract_rnd` loop (lib.rs 496-514). -/
def rndStep (st : RndState) (line : Line) : Option RndState :=
  if eqIgnoreAsciiCase line (lc "#EXTRACT_RND") then some st
  else if !st.finished_land then
    some { st with finished_land := containsSub (lc "ELEVATION_GENERATION") line,
                   body := st.body ++ [line] }
  else if !(containsSub (lc "rnd") line) then
    some { st with body := st.body ++ [line] }
  else do
    let (instruction, mn, mx) ← extract_random_line line
    let defs ← prob_definitions st.label mn mx
    let newLabel ← next_label (some st.label)
    some { st with preamble := st.preamble ++ [defs],
                   body := st.body ++ [prob_conditional st.label instruction mn mx],
                   label := newLabel }

/-- `extract_rnd` (lib.rs 482-518). The initial label `"_A"` is
`next_label(&None)`. A script with no `#EXTRACT_RND` line is returned
unchanged; otherwise the preamble is prepended to the rewritten body. -/
def extract_rnd (lines : List Line) : Option (List Line) :=
  if lines.all (fun line => !(eqIgnoreAsciiCase line (lc "#EXTRACT_RND"))) then
    some lines
  else do
    let st ← lines.foldlM rndStep ⟨[], [], lc "_A", false⟩
    some (st.preamble ++ st.body)

/-- The macro-library collaborator of `expand_line`: the generator functions
of `circlegen.rs` / `landgen.rs` / `actorgen.rs`. Their numeric-geometry
payloads are outside the verified core; each two-argument generator
receives the textual radius argument (an `f64` in the source, checked for
parseability by `expand_line`) and the `u32` angle. -/
structure MacroLib where
  list_random_definitions : Line → Nat → List Line
  list_p1_positions : Line → List Line
  list_p2_positions : Line → Nat → List Line
  list_square_definitions : Line → Nat → List Line
  square_p1_positions : Line → List Line
  square_p2_positions : Line → Nat → List Line
  list_square_definitions_migra : Line → Nat → List Line
  square_p1_positions_migra : Line → List Line
  square_p2_positions_migra : Line → Nat → List Line
  define_labels : List Line
  p1_position : List Line
  p2_position : List Line
  square_avoid_cliffs : List Line
  rock_border : List Line
  make_constants : List Line
  set_placeholder_attributes : List Line
  set_placeholder_attributes_four_seasons : List Line
  tc_center : List Line
  tc_boxes : List Line
  tc_multiboxes : List Line
  vision : List Line
  vils_9_tc : List Line
  vils_9_tc_ze_wall : List Line
  multi_vils_9_tc : List Line
  house_gap_3 : List Line
  multi_houses : List Line
  hut_gap_3 : List Line
  vils_9_straggler : List Line
  vils_9_straggler_socotra : List Line
  multi_stragglers : List Line
  objects_9_vils : List Line
  objects_9_vils_ze_wall : List Line
  arena_circles_2v2 : List Line
  direction_labels : List Line
  snake_lands : List Line
  snake_borders : List Line
  arena_lands : List Line
  four_seasons_lands : List Line
  four_seasons_lakes : List Line
  arena_circle_gaps : List Line
  arena_players_gaps : List Line
  bf_lands_2 : List Line
deriving Inhabited

/-- The parenthesized-directive registry of `expand_line`
(lib.rs 189-199), one entry per `match` arm, in source order. -/
def parenRegistry (lib : MacroLib) : List (Line × (Line → Nat → List Line)) :=
  [(lc "#CIRCLE_LABELS", fun r a => lib.list_random_definitions r a),
   (lc "#CIRCLE_POSITION_P1", fun r _ => lib.list_p1_positions r),
   (lc "#CIRCLE_POSITION_P2", fun r a => lib.list_p2_positions r a),
   (lc "#SQUARE_LABELS", fun r a => lib.list_square_definitions r a),
   (lc "#SQUARE_POSITION_P1", fun r _ => lib.square_p1_positions r),
   (lc "#SQUARE_POSITION_P2", fun r a => lib.square_p2_positions r a),
   (lc "#MIGRA_LABELS", fun r a => lib.list_square_definitions_migra r a),
   (lc "#MIGRA_POSITION_P1", fun r _ => lib.square_p1_positions_migra r),
   (lc "#MIGRA_POSITION_P2", fun r a => lib.square_p2_positions_migra r a)]

/-- The plain-directive registry of `expand_line` (lib.rs 202-236), one
entry per `match` arm, in source order. `#BFLANDS` calls
`bf_lands_2(100, 36.0)` with constant arguments. -/
def plainRegistry (lib : MacroLib) : List (Line × List Line) :=
  [(lc "#POSITION_LABELS", lib.define_labels),
   (lc "#POSITION_P1", lib.p1_position),
   (lc "#POSITION_P2", lib.p2_position),
   (lc "#SQUARE_AVOID_CLIFFS", lib.square_avoid_cliffs),
   (lc "#ROCKGEN", lib.rock_border),
   (lc "#MKCONSTS", lib.make_constants),
   (lc "#SETPHATTR", lib.set_placeholder_attributes),
   (lc "#SETPHATTR4SEASONS", lib.set_placeholder_attributes_four_seasons),
   (lc "#TCCENTER", lib.tc_center),
   (lc "#TCBOXES", lib.tc_boxes),
   (lc "#TCMULTIBOXES", lib.tc_multiboxes),
   (lc "#VISION", lib.vision),
   (lc "#TC9VILS", lib.vils_9_tc),
   (lc "#TC9VILSZEWALL", lib.vils_9_tc_ze_wall),
   (lc "#TCMULTI9VILS", lib.multi_vils_9_tc),
   (lc "#HOUSEGAP3", lib.house_gap_3),
   (lc "#MULTIHOUSES", lib.multi_houses),
   (lc "#HUTGAP3", lib.hut_gap_3),
   (lc "#STRAGGLER9VILS", lib.vils_9_straggler),
   (lc "#STRAGGLER9VILSSOCOTRA", lib.vils_9_straggler_socotra),
   (lc "#MULTISTRAGGLER9VILS", lib.multi_stragglers),
   (lc "#OBJECTS9VILS", lib.objects_9_vils),
   (lc "#OBJECTS9VILSZEWALL", lib.objects_9_vils_ze_wall),
   (lc "#ARENACIRCLES2V2", lib.arena_circles_2v2),
   (lc "#DIRLABELS", lib.direction_labels),
   (lc "#SNAKELANDS", lib.snake_lands),
   (lc "#SNAKEBORDERS", lib.snake_borders),
   (lc "#ARENALANDS", lib.arena_lands),
   (lc "#FOURSEASONSLANDS", lib.four_seasons_lands),
   (lc "#FOURSEASONSLAKES", lib.four_seasons_lakes),
   (lc "#ARENA_CIRCLE_GAPS", lib.arena_circle_gaps),
   (lc "#ARENA_PLAYERS_GAPS", lib.arena_players_gaps),
   (lc "#BFLANDS", lib.bf_lands_2)]

/-- The argument parsing of `expand_line` (lib.rs 187-188): the radius
(`f64`) and the angle (`u32`) between the delimiters found at `i` (`(`),
`j` (`,`) and `k` (`)`); `none` models the `unwrap` panics and
out-of-range slicing (when `,` or `)` precede `(`). The radius keeps its
textual form (see the header note on `f64`). -/
def macroArgs (line : Line) (i j k : Nat) : Option (Line × Nat) := do
  let radius ← rustSlice line (i + 1) j
  if parseF64ok radius then do
    let angleS ← rustSlice line (j + 1) k
    let angle ← parseU32 angleS
    some (radius, angle)
  else none

/-- `expand_line` (lib.rs 174-239), continued: the full dispatch. When the
line contains `(` together with some `,` and `)`, the argument parsing of
`macroArgs` runs (and can panic) *before* the registry is consulted.
Directive lookup uses the uppercased text before `(` (parenthesized case)
or the whole uppercased line (plain case); an unrecognized name falls
through to the `_ => vec![line]` arm. -/
def expand_line (lib : MacroLib) (line : Line) : Option (List Line) :=
  let upper := toUpperLine line
  match findChar '(' line with
  | some i =>
    match findChar ',' line with
    | none => some [line]
    | some j =>
      match findChar ')' line with
      | none => some [line]
      | some k =>
        match macroArgs line i j k with
        | none => none
        | some ra =>
          match (parenRegistry lib).find? (fun e => e.1 == upper.take i) with
          | some e => some (e.2 ra.1 ra.2)
          | none => some [line]
  | none =>
    match (plainRegistry lib).find? (fun e => e.1 == upper) with
    | some e => some e.2
    | none => some [line]

/-- An arbitrary macro library instance (every generator returns no lines);
`expand_line`'s behavior on unrecognized directives is independent of the
library contents. -/
def trivialMacroLib : MacroLib := default

/-- `line.trim().to_uppercase()`, the sentinel normalization used by
`collect_header_comment` (lib.rs 50, 58). -/
def trimUpper (l : Line) : Line := toUpperLine (trimLine l)

/-- The scan from lib.rs 54-67: walks the lines after `#HEADER_START`
collecting the header until a `#HEADER_END` line; `none` models the
`panic!("Header comment never ends.")`. -/
def findHeaderEnd : List Line → Option (List Line × List Line)
  | [] => none
  | l :: rest =>
    if trimUpper l = lc "#HEADER_END" then some ([], rest)
    else (findHeaderEnd rest).map (fun hr => (l :: hr.1, hr.2))

/-- `collect_header_comment` (lib.rs 49-69): splits off the optional
`#HEADER_START`/`#HEADER_END` block. -/
def collect_header_comment (lines : List Line) : Option (List Line × List Line) :=
  match lines with
  | [] => some ([], [])
  | first :: rest =>
    if trimUpper first ≠ lc "#HEADER_START" then some ([], lines)
    else findHeaderEnd rest

/-- The name declared by one line in the first pass of
`substitute_actor_area_names` (lib.rs 526-537): `some none` when the line
declares no actor area, `some (some name)` when it declares `name`, and
`none` when the extraction would panic (`rfind` unwraps). -/
def declaredName (line : Line) : Option (Option Line) :=
  if !((lc "actor_area ").isPrefixOf line) &&
     !((lc "create_actor_area ").isPrefixOf line) then some none
  else if (lc "actor_area ").isPrefixOf line then
    match findChar ' ' line with
    | some i => some (some (line.drop (i + 1)))
    | none => none
  else
    match rfindChar ' ' line with
    | none => none
    | some j =>
      match rfindChar ' ' (line.take j) with
      | none => none
      | some i => (rustSlice line (i + 1) j).map some

/-- One iteration of the ID-assignment loop of
`substitute_actor_area_names` (lib.rs 526-543). The `HashMap` is modelled
as an association list in insertion order (the source only uses
`contains_key`, `insert` of a fresh key, and `get`). The state carries the
map and `next_id`. -/
def areaInsert (st : List (Line × Nat) × Nat) (line : Line) :
    Option (List (Line × Nat) × Nat) :=
  match declaredName line with
  | none => none
  | some none => some st
  | some (some name) =>
    if (st.1.find? (fun e => e.1 == name)).isSome then some st
    else some (st.1 ++ [(name, st.2)], st.2 + 1)

/-- The first pass of `substitute_actor_area_names` (lib.rs 522-543):
the symbol table mapping each declared actor-area name to its assigned ID,
starting from the base value `20000`. -/
def buildActorAreas (lines : List Line) : Option (List (Line × Nat)) :=
  (lines.foldlM areaInsert ([], 20000)).map Prod.fst

/-- The sequence of names declared by the script's actor-area declaration
lines, in order (`none` when some declaration line would make the
extraction panic). -/
def declaredNames : List Line → Option (List Line)
  | [] => some []
  | l :: rest => do
    let o ← declaredName l
    let ns ← declaredNames rest
    some (o.toList ++ ns)

/-- The name-level ID assignment: fold the first-occurrence-wins insertion
over a list of declared names. -/
def insertNames (st : List (Line × Nat) × Nat) (names : List Line) :
    List (Line × Nat) × Nat :=
  names.foldl
    (fun acc name =>
      if (acc.1.find? (fun e => e.1 == name)).isSome then acc
      else (acc.1 ++ [(name, acc.2)], acc.2 + 1)) st

/-- `split_whitespace`: the maximal whitespace-free words of a line, in
order. A whitespace head is skipped; a word head either starts a fresh
word (next character is whitespace or the line ends) or extends the word
that begins at the next character. -/
def splitWsLine : Line → List Line
  | [] => []
  | c :: t =>
    if isWsChar c then splitWsLine t
    else
      match t with
      | [] => [[c]]
      | d :: _ =>
        if isWsChar d then [c] :: splitWsLine t
        else
          match splitWsLine t with
          | [] => [[c]]
          | w :: ws => (c :: w) :: ws

/-- The join step of `condense_line_whitespace` (lib.rs 156-158): the
enumerated words, each but the first preceded by a single space. -/
def joinWords : List Line → Line
  | [] => []
  | [w] => w
  | w :: ws => w ++ ' ' :: joinWords ws

/-- `condense_line_whitespace` (lib.rs 153-159): trim, split on
whitespace, re-join the words with single spaces. -/
def condense_line_whitespace (s : Line) : Line :=
  joinWords (splitWsLine (trimLine s))

/-- `strip_line_comments` (lib.rs 119-134) together with its two helpers
`strip_start_comment` (lib.rs 80-85) and `strip_end_comment`
(lib.rs 96-105), inlined at their call sites: strips `/* ... */` comments
from one line, threading the nested-comment `depth`, and returns the
stripped line with the depth after it. An unbalanced `*/` at depth 0 is
kept literally and scanning continues at depth 0. -/
def strip_line_comments (s : Line) (depth : Nat) : Line × Nat :=
  match h1 : findSub (lc "/*") s, h2 : findSub (lc "*/") s with
  | some i, some j =>
    if i < j then
      -- strip_start_comment s depth i
      let front := if depth > 0 then [] else s.take i
      let res := strip_line_comments (s.drop (i + 2)) (depth + 1)
      (front ++ res.1, res.2)
    else
      -- strip_end_comment s depth j
      if depth > 0 then strip_line_comments (s.drop (j + 2)) (depth - 1)
      else
        let res := strip_line_comments (s.drop (j + 2)) 0
        (s.take (j + 2) ++ res.1, res.2)
  | some i, none =>
    -- strip_start_comment s depth i
    let front := if depth > 0 then [] else s.take i
    let res := strip_line_comments (s.drop (i + 2)) (depth + 1)
    (front ++ res.1, res.2)
  | none, some j =>
    -- strip_end_comment s depth j
    if depth > 0 then strip_line_comments (s.drop (j + 2)) (depth - 1)
    else
      let res := strip_line_comments (s.drop (j + 2)) 0
      (s.take (j + 2) ++ res.1, res.2)
  | none, none => ((if depth > 0 then [] else s), depth)
termination_by s.length
decreasing_by
  all_goals
    first
    | (cases s with
       | nil =>
         have hx : findSub (lc "/*") ([] : Line) = none := rfl
         rw [hx] at h1
         exact Option.noConfusion h1
       | cons a t =>
         simp only [List.length_drop, List.length_cons]
         omega)
    | (cases s with
       | nil =>
         have hx : findSub (lc "*/") ([] : Line) = none := rfl
         rw [hx] at h2
         exact Option.noConfusion h2
       | cons a t =>
         simp only [List.length_drop, List.length_cons]
         omega)

/-! ## Shared lemmas -/

theorem isPrefixOf_length {pat s : Line} (h : pat.isPrefixOf s = true) :
    pat.length ≤ s.length := by
  induction pat generalizing s with
  | nil => simp
  | cons c t ih =>
    cases s with
    | nil => simp [List.isPrefixOf] at h
    | cons d u =>
      simp only [List.isPrefixOf, Bool.and_eq_true] at h
      simp only [List.length_cons, Nat.add_le_add_iff_right]
      exact ih h.2

theorem findSub_bound {pat s : Line} {i : Nat} (h : findSub pat s = some i) :
    i + pat.length ≤ s.length := by
  induction s generalizing i with
  | nil =>
    unfold findSub at h
    split at h
    · cases h
      have hp := isPrefixOf_length (by assumption : pat.isPrefixOf ([] : Line) = true)
      omega
    · exact Option.noConfusion h
  | cons c t ih =>
    unfold findSub at h
    split at h
    · cases h
      have hp := isPrefixOf_length (by assumption : pat.isPrefixOf (c :: t) = true)
      omega
    · rw [Option.map_eq_some'] at h
      obtain ⟨i2, hi2, hplus⟩ := h
      have := ih hi2
      simp only [List.length_cons]
      omega

theorem containsSub_length {pat s : Line} (h : containsSub pat s = true) :
    pat.length ≤ s.length := by
  unfold containsSub at h
  cases hf : findSub pat s with
  | none => rw [hf] at h; exact Bool.noConfusion h
  | some i => have := findSub_bound hf; omega

theorem eqIC_length {a b : Line} (h : eqIgnoreAsciiCase a b = true) :
    a.length = b.length := by
  unfold eqIgnoreAsciiCase at h
  have h2 : a.map Char.toLower = b.map Char.toLower := by
    exact beq_iff_eq.mp h
  have := congrArg List.length h2
  simpa using this

theorem foldlM_option_append {α β : Type} (f : β → α → Option β)
    (l1 l2 : List α) (b : β) :
    (l1 ++ l2).foldlM f b = (l1.foldlM f b).bind fun b2 => l2.foldlM f b2 := by
  induction l1 generalizing b with
  | nil => simp
  | cons a t ih =>
    simp only [List.cons_append, List.foldlM_cons]
    cases hfa : f b a with
    | none => simp
    | some b1 => simp [ih]

theorem get?_replicate_lt {α : Type} (a : α) :
    ∀ n i, i < n → (List.replicate n a).get? i = some a := by
  intro n
  induction n with
  | zero => intro i h; omega
  | succ n ih =>
    intro i h
    cases i with
    | zero => rfl
    | succ i2 =>
      rw [List.replicate_succ]
      simpa using ih i2 (by omega)

theorem get?_append_lt {α : Type} (l1 l2 : List α) (i : Nat) (h : i < l1.length) :
    (l1 ++ l2).get? i = l1.get? i := by
  induction l1 generalizing i with
  | nil => simp at h
  | cons a t ih =>
    cases i with
    | zero => rfl
    | succ i2 =>
      simp only [List.length_cons] at h
      simpa using ih i2 (by omega)

theorem get?_append_ge {α : Type} (l1 l2 : List α) (i : Nat) (h : l1.length ≤ i) :
    (l1 ++ l2).get? i = l2.get? (i - l1.length) := by
  induction l1 generalizing i with
  | nil => simp
  | cons a t ih =>
    cases i with
    | zero => simp at h
    | succ i2 =>
      simp only [List.length_cons] at h ⊢
      simpa [Nat.succ_sub_succ] using ih i2 (by omega)

/-! ## Claim C4: weight distribution -/

/-- C4: for every `m` with `1 ≤ m ≤ 100`, `probs 100 m` yields exactly `m`
weights summing to exactly `100`, any two weights differ by at most `1`,
and the first `100 % m` weights are the larger ones, each one unit above
the remaining ones. -/
theorem probs_weight_distribution (m : Nat) (h1 : 1 ≤ m) (h2 : m ≤ 100) :
    (probs 100 m).length = m ∧
    (probs 100 m).sum = 100 ∧
    (∀ x ∈ probs 100 m, ∀ y ∈ probs 100 m, x ≤ y + 1) ∧
    (∀ i, i < 100 % m → (probs 100 m).get? i = some (100 / m + 1)) ∧
    (∀ i, 100 % m ≤ i → i < m → (probs 100 m).get? i = some (100 / m)) := by
  have hmlt : 100 % m < m := Nat.mod_lt _ (by omega)
  have hdm : m * (100 / m) + 100 % m = 100 := Nat.div_add_mod 100 m
  refine ⟨?_, ?_, ?_, ?_, ?_⟩
  · simp only [probs, List.length_append, List.length_replicate]
    omega
  · simp only [probs, List.sum_append, List.sum_const_nat]
    have hmul : (m - 100 % m) * (100 / m) + (100 % m) * (100 / m)
        = m * (100 / m) := by
      rw [← Nat.add_mul]
      congr 1
      omega
    rw [Nat.mul_add]
    omega
  · intro x hx y hy
    have hval : ∀ z ∈ probs 100 m, z = 100 / m + 1 ∨ z = 100 / m := by
      intro z hz
      rcases List.mem_append.mp hz with hz1 | hz1
      · exact Or.inl (List.eq_of_mem_replicate hz1)
      · exact Or.inr (List.eq_of_mem_replicate hz1)
    rcases hval x hx with hx2 | hx2 <;> rcases hval y hy with hy2 | hy2 <;> omega
  · intro i hi
    unfold probs
    rw [get?_append_lt _ _ _ (by simpa using hi)]
    exact get?_replicate_lt _ _ _ hi
  · intro i hge hlt
    unfold probs
    rw [get?_append_ge _ _ _ (by simpa using hge)]
    rw [List.length_replicate]
    exact get?_replicate_lt _ _ _ (by omega)

/-- Witness for C4 at `m = 7`. -/
theorem probs_weight_distribution_w :
    (probs 100 7).length = 7 ∧ (probs 100 7).sum = 100 :=
  ⟨(probs_weight_distribution 7 (by decide) (by decide)).1,
   (probs_weight_distribution 7 (by decide) (by decide)).2.1⟩

/-! ## Claim C6: label generation -/

theorem getLast?_some_ne_nil {l : Line} {c : Char} (h : l.getLast? = some c) :
    l ≠ [] := by
  intro he
  subst he
  exact Option.noConfusion h

/-- C6: label generation from no prior label yields `"_A"`; for a label
whose last character is not `Z` the successor replaces that last character
by the next character (same length); for a label ending in `Z` an `A` is
appended (length grows by one); and every run of at most 26 successive
calls starting from no prior label yields pairwise-distinct labels. -/
theorem next_label_spec :
    next_label none = some (lc "_A") ∧
    (∀ (l : Line) (c : Char), l.getLast? = some c → c ≠ 'Z' →
      next_label (some l) = some (l.dropLast ++ [Char.ofNat (c.toNat + 1)]) ∧
      (l.dropLast ++ [Char.ofNat (c.toNat + 1)]).length = l.length) ∧
    (∀ l : Line, l.getLast? = some 'Z' →
      next_label (some l) = some (l ++ [ 'A']) ∧
      (l ++ [ 'A']).length = l.length + 1) ∧
    (∀ k, k ≤ 26 → (labelList k).Nodup) := by
  refine ⟨rfl, ?_, ?_, ?_⟩
  · intro l c h hz
    constructor
    · simp only [next_label]
      rw [h]
      simp only [if_neg hz]
    · have hne := getLast?_some_ne_nil h
      simp only [List.length_append, List.length_dropLast, List.length_cons,
        List.length_nil]
      have : 0 < l.length := List.length_pos.mpr hne
      omega
  · intro l h
    constructor
    · simp only [next_label]
      rw [h]
      simp
    · simp
  · decide

/-- Witness for C6: the start label, a non-`Z` step, and a `Z` step at
concrete labels. -/
theorem next_label_spec_w :
    next_label none = some (lc "_A") ∧
    next_label (some (lc "_A")) = some (lc "_B") ∧
    next_label (some (lc "_Z")) = some (lc "_ZA") := by
  refine ⟨next_label_spec.1, ?_, ?_⟩
  · rw [(next_label_spec.2.1 (lc "_A") 'A' (by decide) (by decide)).1]
    decide
  · rw [(next_label_spec.2.2.1 (lc "_Z") (by decide)).1]
    decide

/-! ## Claim C2: zero-count repeat blocks -/

/-- C2 (code bug): a `#REPEAT(0)` block does *not* expand to nothing.
`RepeatLines::get_text` returns the empty string, but `repeat_lines`
splits that empty string on `"\n"`, which yields one empty piece, so the
block contributes exactly one empty output line — at top level and, in
the nested case, one empty line in the enclosing frame (which the outer
expansion then duplicates). -/
theorem repeat_zero_block_emits_empty_line :
    repeat_lines [lc "#REPEAT(0)", lc "create_land", lc "#END_REPEAT"]
      = some [[]] ∧
    repeat_lines [lc "#REPEAT(2)", lc "#REPEAT(0)", lc "create_land",
        lc "#END_REPEAT", lc "#END_REPEAT"]
      = some [[], []] ∧
    (RepeatLines.mk 0 [lc "create_land"]).get_text = [] := by
  refine ⟨by decide, by decide, by decide⟩

/-! ## Claim C1: unrecognized directives in the macro expander -/

/-- C1 counterexample: the line `"X(A,B)"` has an unrecognized directive
name (`"X"`) and a parenthesized, comma-and-close-paren form whose first
argument `"A"` is not parseable as a floating-point radius. The claim says
it passes through unchanged as a single literal line; the code parses the
arguments before looking up the name and panics (`none`), for every macro
library. -/
theorem expand_line_unparsable_args_panics :
    expand_line trivialMacroLib (lc "X(A,B)") = none ∧
    expand_line trivialMacroLib (lc "X(A,B)") ≠ some [lc "X(A,B)"] := by
  refine ⟨by decide, by decide⟩

/-- C1 amended: an unrecognized directive line passes through unchanged
when it has no `(`, or lacks a `,` or a `)`, or when its two parenthesized
arguments do parse; but when `(`, `,` and `)` are all present and the
argument extraction or parsing fails, expansion fails fatally (even for an
unrecognized directive) because the source parses the arguments before
consulting the registry. -/
theorem expand_line_unrecognized_passthrough (lib : MacroLib) (line : Line) :
    (findChar '(' line = none →
      (plainRegistry lib).find? (fun e => e.1 == toUpperLine line) = none →
      expand_line lib line = some [line]) ∧
    (∀ i, findChar '(' line = some i → findChar ',' line = none →
      expand_line lib line = some [line]) ∧
    (∀ i j, findChar '(' line = some i → findChar ',' line = some j →
      findChar ')' line = none → expand_line lib line = some [line]) ∧
    (∀ i j k, findChar '(' line = some i → findChar ',' line = some j →
      findChar ')' line = some k → macroArgs line i j k = none →
      expand_line lib line = none) ∧
    (∀ i j k ra, findChar '(' line = some i → findChar ',' line = some j →
      findChar ')' line = some k → macroArgs line i j k = some ra →
      (parenRegistry lib).find? (fun e => e.1 == (toUpperLine line).take i) = none →
      expand_line lib line = some [line]) := by
  refine ⟨?_, ?_, ?_, ?_, ?_⟩
  · intro hp hreg
    simp only [expand_line]
    rw [hp, hreg]
  · intro i hp hc
    simp only [expand_line]
    rw [hp, hc]
  · intro i j hp hc hk
    simp only [expand_line]
    rw [hp, hc, hk]
  · intro i j k hp hc hk hargs
    simp only [expand_line, hp, hc, hk, hargs]
  · intro i j k ra hp hc hk hargs hreg
    simp only [expand_line, hp, hc, hk, hargs, hreg]

/-- Witness for C1's amended theorem: both pass-through shapes and the
fatal shape at concrete lines. -/
theorem expand_line_unrecognized_passthrough_w :
    expand_line trivialMacroLib (lc "#NOTAMACRO") = some [lc "#NOTAMACRO"] ∧
    expand_line trivialMacroLib (lc "base_terrain rnd(3,7)")
      = some [lc "base_terrain rnd(3,7)"] ∧
    expand_line trivialMacroLib (lc "#DEFINE F(X,Y)") = none := by
  refine
    ⟨(expand_line_unrecognized_passthrough trivialMacroLib (lc "#NOTAMACRO")).1
      (by decide) (by decide),
     (expand_line_unrecognized_passthrough trivialMacroLib
        (lc "base_terrain rnd(3,7)")).2.2.2.2 16 18 20 (lc "3", 7)
      (by decide) (by decide) (by decide) (by decide) rfl,
     (expand_line_unrecognized_passthrough trivialMacroLib
        (lc "#DEFINE F(X,Y)")).2.2.2.1 9 11 13
      (by decide) (by decide) (by decide) (by decide)⟩

/-! ## Claim C3: every-player directives outside an object block -/

/-- C3 counterexample: a `#PLACE8` line outside any open object block does
*not* make the per-player duplication pass fail — the guarding `assert!`
only checks the 2-player directive, so the 8-player directive passes
through to the output as an ordinary line. -/
theorem place8_outside_block_not_fatal :
    assign_objects [lc "#PLACE8"] = some [lc "#PLACE8"] := by decide

/-- C3 amended: of the two every-player directives occurring as a line
outside an open object block, only the 2-player variant
`#SET_PLACE_FOR_EVERY_PLAYER` is fatal; the 8-player variant `#PLACE8`
is passed through to the output unchanged. `st` is the loop state after
any prefix of the input that leaves no object block open. -/
theorem every_player_outside_block (pre post : List Line) (st : AOState)
    (hpre : pre.foldlM assignStep assignInit = some st)
    (hobj : st.object = []) :
    assign_objects (pre ++ lc "#SET_PLACE_FOR_EVERY_PLAYER" :: post) = none ∧
    assignStep st (lc "#PLACE8")
      = some { st with output := st.output ++ [lc "#PLACE8"] } := by
  constructor
  · unfold assign_objects
    rw [foldlM_option_append]
    rw [hpre]
    simp only [Option.some_bind, List.foldlM_cons]
    have hstep : assignStep st (lc "#SET_PLACE_FOR_EVERY_PLAYER") = none := by
      have ht : eqIgnoreAsciiCase (lc "#SET_PLACE_FOR_EVERY_PLAYER")
          (lc "#SET_PLACE_FOR_EVERY_PLAYER") = true := by decide
      simp only [assignStep, hobj, ht]
      simp
    rw [hstep]
    simp
  · have h1 : eqIgnoreAsciiCase (lc "#PLACE8")
        (lc "#SET_PLACE_FOR_EVERY_PLAYER") = false := by decide
    have h2 : (lc "create_object").isPrefixOf (lc "#PLACE8") = false := by decide
    simp only [assignStep, hobj, h1, h2]
    simp

/-- Witness for C3's amended theorem at the empty prefix. -/
theorem every_player_outside_block_w :
    assign_objects [lc "#SET_PLACE_FOR_EVERY_PLAYER"] = none ∧
    assignStep assignInit (lc "#PLACE8")
      = some { assignInit with output := [lc "#PLACE8"] } := by
  have h := every_player_outside_block [] [] assignInit rfl rfl
  exact ⟨h.1, h.2⟩

/-! ## Claim C10: header extraction -/

theorem findHeaderEnd_split (endl : Line) (mid rest : List Line)
    (he : trimUpper endl = lc "#HEADER_END")
    (hmid : ∀ l ∈ mid, trimUpper l ≠ lc "#HEADER_END") :
    findHeaderEnd (mid ++ endl :: rest) = some (mid, rest) := by
  induction mid with
  | nil => simp [findHeaderEnd, he]
  | cons l t ih =>
    have hl : trimUpper l ≠ lc "#HEADER_END" := hmid l (by simp)
    have ht : ∀ x ∈ t, trimUpper x ≠ lc "#HEADER_END" := by
      intro x hx
      exact hmid x (by simp [hx])
    simp [findHeaderEnd, hl, ih ht]

/-- C10: for an input whose first line is the start sentinel (trimmed,
case-insensitively) and that contains an end-sentinel line, the extracted
header is exactly the lines strictly between the two sentinel lines, the
remainder is exactly the lines after the end-sentinel line, and the two
sentinel lines themselves are dropped. -/
theorem collect_header_between (start endl : Line) (mid rest : List Line)
    (hs : trimUpper start = lc "#HEADER_START")
    (he : trimUpper endl = lc "#HEADER_END")
    (hmid : ∀ l ∈ mid, trimUpper l ≠ lc "#HEADER_END") :
    collect_header_comment (start :: (mid ++ endl :: rest)) = some (mid, rest) := by
  simp only [collect_header_comment, hs]
  exact findHeaderEnd_split endl mid rest he hmid

/-- Witness for C10 at a concrete script with mixed-case, padded
sentinels. -/
theorem collect_header_between_w :
    collect_header_comment
        [lc "  #header_start", lc "by twest", lc " #Header_End ",
         lc "create_land"]
      = some ([lc "by twest"], [lc "create_land"]) := by
  have h := collect_header_between (lc "  #header_start") (lc " #Header_End ")
    [lc "by twest"] [lc "create_land"] (by decide) (by decide)
    (by intro l hl; simp at hl; subst hl; decide)
  exact h

/-! ## Claim C5: actor-area ID assignment -/

theorem areaInsert_by_names : ∀ (lines : List Line) (st : List (Line × Nat) × Nat),
    lines.foldlM areaInsert st
      = (declaredNames lines).map (fun ns => insertNames st ns) := by
  intro lines
  induction lines with
  | nil => intro st; rfl
  | cons l rest ih =>
    intro st
    rw [List.foldlM_cons]
    cases hd : declaredName l with
    | none =>
      simp [areaInsert, hd, declaredNames]
    | some o =>
      cases o with
      | none =>
        cases hrest : declaredNames rest with
        | none => simp [areaInsert, hd, declaredNames, hrest, ih st]
        | some ns => simp [areaInsert, hd, declaredNames, hrest, ih st, insertNames]
      | some n =>
        cases hrest : declaredNames rest with
        | none =>
          cases hfound : (st.1.find? (fun e => e.1 == n)).isSome with
          | true => simp [areaInsert, hd, declaredNames, hrest, hfound, ih]
          | false => simp [areaInsert, hd, declaredNames, hrest, hfound, ih]
        | some ns =>
          cases hfound : (st.1.find? (fun e => e.1 == n)).isSome with
          | true => simp [areaInsert, hd, declaredNames, hrest, hfound, ih, insertNames]
          | false => simp [areaInsert, hd, declaredNames, hrest, hfound, ih, insertNames]

/-- C5: for every script whose actor-area declaration lines declare the
names `["foo", "bar", "foo"]` in that order, the resolver's first pass
assigns `foo` and `bar` the distinct IDs `20000` and `20001`, assigns
`foo` a single stable ID (its re-declaration is a no-op: the symbol table
equals the one built from the first two declarations alone), and both
assigned IDs are at least the base value `20000`. -/
theorem actor_area_ids_stable (lines : List Line)
    (h : declaredNames lines = some [lc "foo", lc "bar", lc "foo"]) :
    buildActorAreas lines = some [(lc "foo", 20000), (lc "bar", 20001)] ∧
    insertNames ([], 20000) [lc "foo", lc "bar", lc "foo"]
      = insertNames ([], 20000) [lc "foo", lc "bar"] ∧
    (20000 : Nat) ≠ 20001 ∧ 20000 ≤ 20000 ∧ (20000 : Nat) ≤ 20001 := by
  refine ⟨?_, by decide, by decide, by decide, by decide⟩
  unfold buildActorAreas
  rw [areaInsert_by_names lines ([], 20000), h]
  decide

/-- Witness for C5 at a concrete three-declaration script (using both
recognized declaration shapes). -/
theorem actor_area_ids_stable_w :
    buildActorAreas
        [lc "actor_area foo", lc "create_actor_area 5 5 bar 3",
         lc "land_position 10 10", lc "actor_area foo"]
      = some [(lc "foo", 20000), (lc "bar", 20001)] :=
  (actor_area_ids_stable
    [lc "actor_area foo", lc "create_actor_area 5 5 bar 3",
     lc "land_position 10 10", lc "actor_area foo"] (by decide)).1

/-! ## Claim C7: unbalanced close-comment delimiter at depth 0 -/

/-- C7: on a line processed at depth 0 in which `*/` occurs (at index `j`)
with no earlier `/*`, the stripper emits the text up to and including the
close delimiter literally, continues scanning the remainder at depth 0,
and the resulting depth is never negative (it is the depth produced by
scanning the remainder, a natural number). -/
theorem strip_unbalanced_close_literal (s : Line) (j : Nat)
    (hc : findSub (lc "*/") s = some j)
    (ho : ∀ i, findSub (lc "/*") s = some i → j < i) :
    strip_line_comments s 0
      = (s.take (j + 2) ++ (strip_line_comments (s.drop (j + 2)) 0).1,
         (strip_line_comments (s.drop (j + 2)) 0).2) ∧
    0 ≤ (strip_line_comments s 0).2 := by
  refine ⟨?_, Nat.zero_le _⟩
  rw [strip_line_comments.eq_def]
  split
  · rename_i i j2 h1 h2
    rw [hc] at h2
    have hj : j2 = j := (Option.some.inj h2).symm
    subst hj
    have hij : ¬ i < j2 := by
      have := ho i h1
      omega
    rw [if_neg hij]
    rw [if_neg (by omega : ¬ (0 : Nat) > 0)]
  · rename_i i h1 h2
    rw [h2] at hc
    exact Option.noConfusion hc
  · rename_i j2 h1 h2
    rw [hc] at h2
    have hj : j2 = j := (Option.some.inj h2).symm
    subst hj
    rw [if_neg (by omega : ¬ (0 : Nat) > 0)]
  · rename_i h1 h2
    rw [h2] at hc
    exact Option.noConfusion hc

/-- Witness for C7 at the concrete line `"ab*/cd"` (a `*/` with no `/*`
anywhere): the whole line survives and the final depth is 0. -/
theorem strip_unbalanced_close_literal_w :
    strip_line_comments (lc "ab*/cd") 0 = (lc "ab*/cd", 0) := by
  have hmain := (strip_unbalanced_close_literal (lc "ab*/cd") 2 (by decide)
    (by
      intro i hi
      rw [show findSub (lc "/*") (lc "ab*/cd") = none from by decide] at hi
      exact Option.noConfusion hi)).1
  have hcd : strip_line_comments (lc "cd") 0 = (lc "cd", 0) := by
    rw [strip_line_comments.eq_def]
    split
    · rename_i i j2 h1 h2
      rw [show findSub (lc "/*") (lc "cd") = none from by decide] at h1
      exact Option.noConfusion h1
    · rename_i i h1 h2
      rw [show findSub (lc "/*") (lc "cd") = none from by decide] at h1
      exact Option.noConfusion h1
    · rename_i j2 h1 h2
      rw [show findSub (lc "*/") (lc "cd") = none from by decide] at h2
      exact Option.noConfusion h2
    · rw [if_neg (by omega : ¬ (0 : Nat) > 0)]
  rw [hmain, show (lc "ab*/cd").drop 4 = lc "cd" from by decide, hcd]
  decide




/-! ## Claim C8: whitespace condensing -/

set_option maxHeartbeats 2000000 in
theorem splitWsLine_cons_ws {c : Char} (t : Line) (hc : isWsChar c = true) :
    splitWsLine (c :: t) = splitWsLine t := by
  simp [splitWsLine, hc]

set_option maxHeartbeats 2000000 in
theorem splitWsLine_single {c : Char} (hc : isWsChar c = false) :
    splitWsLine [c] = [[c]] := by
  simp [splitWsLine, hc]

set_option maxHeartbeats 2000000 in
theorem splitWsLine_word_break {c d : Char} (t2 : Line)
    (hc : isWsChar c = false) (hd : isWsChar d = true) :
    splitWsLine (c :: d :: t2) = [c] :: splitWsLine (d :: t2) := by
  simp [splitWsLine, hc, hd]

set_option maxHeartbeats 2000000 in
theorem splitWsLine_word_extend {c d : Char} {t2 : Line} {w : Line}
    {ws : List Line} (hc : isWsChar c = false) (hd : isWsChar d = false)
    (hsp : splitWsLine (d :: t2) = w :: ws) :
    splitWsLine (c :: d :: t2) = (c :: w) :: ws := by
  rw [splitWsLine]
  simp only [hc, hd, hsp]
  simp

/-- The shape `split_whitespace` produces: every word nonempty and free of
whitespace characters. -/
def GoodWords (ws : List Line) : Prop :=
  ∀ w ∈ ws, w ≠ [] ∧ ∀ c ∈ w, isWsChar c = false

theorem splitWsLine_ne_nil {d : Char} (t2 : Line) (hd : isWsChar d = false) :
    splitWsLine (d :: t2) ≠ [] := by
  induction t2 generalizing d with
  | nil => rw [splitWsLine_single hd]; simp
  | cons e t3 ih =>
    cases he : isWsChar e with
    | true => rw [splitWsLine_word_break t3 hd he]; simp
    | false =>
      cases hsp : splitWsLine (e :: t3) with
      | nil => exact absurd hsp (ih he)
      | cons w ws => rw [splitWsLine_word_extend hd he hsp]; simp

theorem splitWs_good (s : Line) : GoodWords (splitWsLine s) := by
  induction s with
  | nil => intro w hw; exact absurd hw (by simp [splitWsLine])
  | cons c t ih =>
    intro w hw
    cases hc : isWsChar c with
    | true =>
      rw [splitWsLine_cons_ws t hc] at hw
      exact ih w hw
    | false =>
      cases t with
      | nil =>
        rw [splitWsLine_single hc] at hw
        simp at hw
        subst hw
        exact ⟨by simp, by simp [hc]⟩
      | cons d t2 =>
        cases hd : isWsChar d with
        | true =>
          rw [splitWsLine_word_break t2 hc hd] at hw
          rcases List.mem_cons.mp hw with hw1 | hw1
          · subst hw1
            exact ⟨by simp, by simp [hc]⟩
          · exact ih w hw1
        | false =>
          cases hsp : splitWsLine (d :: t2) with
          | nil => exact absurd hsp (splitWsLine_ne_nil t2 hd)
          | cons w1 ws1 =>
            rw [splitWsLine_word_extend hc hd hsp] at hw
            rcases List.mem_cons.mp hw with hw1 | hw1
            · subst hw1
              have h1 := ih w1 (by rw [hsp]; simp)
              refine ⟨by simp, ?_⟩
              intro x hx
              rcases List.mem_cons.mp hx with hx1 | hx1
              · subst hx1; exact hc
              · exact h1.2 x hx1
            · exact ih w (by rw [hsp]; simp [hw1])

theorem splitWs_word_prefix :
    ∀ (w : Line), w ≠ [] → (∀ c ∈ w, isWsChar c = false) →
    ∀ (t : Line), (t = [] ∨ ∃ d t2, t = d :: t2 ∧ isWsChar d = true) →
    splitWsLine (w ++ t) = w :: splitWsLine t := by
  intro w
  induction w with
  | nil => intro h; exact absurd rfl h
  | cons c w2 ih =>
    intro _ hchars t ht
    have hc : isWsChar c = false := hchars c (by simp)
    cases w2 with
    | nil =>
      rcases ht with ht | ⟨d, t2, ht, hd⟩
      · subst ht
        rw [List.append_nil, splitWsLine_single hc]
        rfl
      · subst ht
        exact splitWsLine_word_break t2 hc hd
    | cons c2 w3 =>
      have hc2 : isWsChar c2 = false := hchars c2 (by simp)
      have ihr := ih (by simp) (fun x hx => hchars x (List.mem_cons_of_mem c hx))
        t ht
      rw [show (c2 :: w3) ++ t = c2 :: (w3 ++ t) from rfl] at ihr
      exact splitWsLine_word_extend hc hc2 ihr

theorem splitWs_join (ws : List Line) (hg : GoodWords ws) :
    splitWsLine (joinWords ws) = ws := by
  induction ws with
  | nil => rfl
  | cons w rest ih =>
    obtain ⟨hne, hchars⟩ := hg w (by simp)
    cases rest with
    | nil =>
      have h := splitWs_word_prefix w hne hchars [] (Or.inl rfl)
      rw [List.append_nil] at h
      show splitWsLine w = [w]
      rw [h]
      rfl
    | cons v rest2 =>
      have hrest : GoodWords (v :: rest2) :=
        fun x hx => hg x (List.mem_cons_of_mem w hx)
      have h := splitWs_word_prefix w hne hchars (' ' :: joinWords (v :: rest2))
        (Or.inr ⟨' ', joinWords (v :: rest2), rfl, by decide⟩)
      show splitWsLine (w ++ ' ' :: joinWords (v :: rest2)) = w :: v :: rest2
      rw [h]
      rw [splitWsLine_cons_ws _ (by decide)]
      rw [ih hrest]

theorem joinWords_head_shape (w : Line) (rest : List Line) :
    joinWords (w :: rest) = w ∨
    joinWords (w :: rest) = w ++ ' ' :: joinWords rest := by
  cases rest with
  | nil => exact Or.inl rfl
  | cons v rest2 => exact Or.inr rfl

theorem join_dropWhile_self (ws : List Line) (hg : GoodWords ws) :
    (joinWords ws).dropWhile isWsChar = joinWords ws := by
  cases ws with
  | nil => rfl
  | cons w rest =>
    obtain ⟨hne, hchars⟩ := hg w (by simp)
    obtain ⟨c, w2, hw⟩ : ∃ c w2, w = c :: w2 := by
      cases w with
      | nil => exact absurd rfl hne
      | cons c w2 => exact ⟨c, w2, rfl⟩
    have hc : isWsChar c = false := hchars c (by simp [hw])
    rcases joinWords_head_shape w rest with hj | hj <;>
      rw [hj, hw] <;>
      first
      | exact List.dropWhile_cons_of_neg (by simp [hc])
      | rw [show (c :: w2) ++ ' ' :: joinWords rest
            = c :: (w2 ++ ' ' :: joinWords rest) from rfl]
        exact List.dropWhile_cons_of_neg (by simp [hc])

theorem joinWords_append_single (ws : List Line) (v : Line) (h : ws ≠ []) :
    joinWords (ws ++ [v]) = joinWords ws ++ ' ' :: v := by
  induction ws with
  | nil => exact absurd rfl h
  | cons w rest ih =>
    cases rest with
    | nil => rfl
    | cons u rest2 =>
      have ih2 := ih (by simp)
      show w ++ ' ' :: joinWords ((u :: rest2) ++ [v])
        = (w ++ ' ' :: joinWords (u :: rest2)) ++ ' ' :: v
      rw [ih2]
      simp [List.append_assoc]

theorem joinWords_reverse (ws : List Line) :
    (joinWords ws).reverse = joinWords ((ws.map List.reverse).reverse) := by
  induction ws with
  | nil => rfl
  | cons w rest ih =>
    cases rest with
    | nil => rfl
    | cons u rest2 =>
      show (w ++ ' ' :: joinWords (u :: rest2)).reverse = _
      rw [List.reverse_append]
      rw [show (' ' :: joinWords (u :: rest2)).reverse
          = (joinWords (u :: rest2)).reverse ++ [' '] from by simp]
      rw [ih]
      rw [show ((w :: u :: rest2).map List.reverse).reverse
          = ((u :: rest2).map List.reverse).reverse ++ [w.reverse] from by simp]
      rw [joinWords_append_single _ _ (by simp)]
      simp [List.append_assoc]

theorem goodWords_reverse (ws : List Line) (hg : GoodWords ws) :
    GoodWords ((ws.map List.reverse).reverse) := by
  intro w hw
  rw [List.mem_reverse, List.mem_map] at hw
  obtain ⟨w0, hw0, hr⟩ := hw
  subst hr
  obtain ⟨hne, hch⟩ := hg w0 hw0
  exact ⟨by simpa using hne, fun c hc => hch c (by simpa using hc)⟩

theorem trim_join (ws : List Line) (hg : GoodWords ws) :
    trimLine (joinWords ws) = joinWords ws := by
  unfold trimLine
  rw [join_dropWhile_self ws hg]
  rw [joinWords_reverse]
  rw [join_dropWhile_self _ (goodWords_reverse ws hg)]
  rw [← joinWords_reverse]
  exact List.reverse_reverse _

/-- C8: whitespace condensing is idempotent, and condensing a line of
nothing but whitespace yields the empty line. -/
theorem condense_idempotent_ws_empty :
    (∀ s : Line, condense_line_whitespace (condense_line_whitespace s)
      = condense_line_whitespace s) ∧
    (∀ s : Line, s.all isWsChar = true → condense_line_whitespace s = []) := by
  constructor
  · intro s
    have hg : GoodWords (splitWsLine (trimLine s)) := splitWs_good _
    show joinWords (splitWsLine (trimLine
      (joinWords (splitWsLine (trimLine s))))) = _
    rw [trim_join _ hg, splitWs_join _ hg]
    rfl
  · intro s hall
    have h1 : s.dropWhile isWsChar = [] := List.dropWhile_eq_nil_iff.mpr (by
      intro x hx
      exact List.all_eq_true.mp hall x hx)
    show joinWords (splitWsLine (trimLine s)) = []
    unfold trimLine
    rw [h1]
    rfl

/-- Witness for C8: idempotence at a concrete line, and emptiness for a
concrete all-whitespace line; the concrete condensed value is checked by
evaluation. -/
theorem condense_idempotent_ws_empty_w :
    condense_line_whitespace (condense_line_whitespace (lc "  a   b "))
      = condense_line_whitespace (lc "  a   b ") ∧
    condense_line_whitespace (lc " \t ") = [] ∧
    condense_line_whitespace (lc "  a   b ") = lc "a b" :=
  ⟨condense_idempotent_ws_empty.1 (lc "  a   b "),
   condense_idempotent_ws_empty.2 (lc " \t ") (by decide),
   by decide⟩

/-! ## Claim C9: randomness extraction after land generation -/

theorem rndStep_finished {st st2 : RndState} {l : Line}
    (h : rndStep st l = some st2)
    (hd : st.finished_land = true ∨
      containsSub (lc "ELEVATION_GENERATION") l = true) :
    st2.finished_land = true := by
  unfold rndStep at h
  split at h
  · rcases hd with hf | hm
    · exact Option.some.inj h ▸ hf
    · rename_i hdir
      have h1 := eqIC_length hdir
      have h2 := containsSub_length hm
      rw [show (lc "#EXTRACT_RND").length = 12 from rfl] at h1
      rw [show (lc "ELEVATION_GENERATION").length = 20 from rfl] at h2
      omega
  · split at h
    · rename_i hguard
      rcases hd with hf | hm
      · rw [hf] at hguard
        simp at hguard
      · rw [← Option.some.inj h]
        simpa using hm
    · rename_i hguard
      have hf : st.finished_land = true := by
        cases hfl : st.finished_land with
        | true => rfl
        | false => rw [hfl] at hguard; simp at hguard
      split at h
      · rw [← Option.some.inj h]
        exact hf
      · cases hx : extract_random_line l with
        | none =>
          rw [hx] at h
          have h2 : (none : Option RndState) = some st2 := h
          exact Option.noConfusion h2
        | some tri =>
          obtain ⟨instruction, mn, mx⟩ := tri
          rw [hx] at h
          have h2 : (do
              let defs ← prob_definitions st.label mn mx
              let newLabel ← next_label (some st.label)
              some (RndState.mk (st.preamble ++ [defs])
                (st.body ++ [prob_conditional st.label instruction mn mx])
                newLabel st.finished_land)) = some st2 := h
          cases hdefs : prob_definitions st.label mn mx with
          | none =>
            rw [hdefs] at h2
            have h3 : (none : Option RndState) = some st2 := h2
            exact Option.noConfusion h3
          | some defs =>
            rw [hdefs] at h2
            have h3 : (do
                let newLabel ← next_label (some st.label)
                some (RndState.mk (st.preamble ++ [defs])
                  (st.body ++ [prob_conditional st.label instruction mn mx])
                  newLabel st.finished_land)) = some st2 := h2
            cases hnl : next_label (some st.label) with
            | none =>
              rw [hnl] at h3
              have h4 : (none : Option RndState) = some st2 := h3
              exact Option.noConfusion h4
            | some nl =>
              rw [hnl] at h3
              have h4 : some (RndState.mk (st.preamble ++ [defs])
                  (st.body ++ [prob_conditional st.label instruction mn mx])
                  nl st.finished_land) = some st2 := h3
              rw [← Option.some.inj h4]
              exact hf

theorem foldRnd_finished : ∀ (ls : List Line) (st st2 : RndState),
    ls.foldlM rndStep st = some st2 →
    (st.finished_land = true ∨
      ∃ y ∈ ls, containsSub (lc "ELEVATION_GENERATION") y = true) →
    st2.finished_land = true := by
  intro ls
  induction ls with
  | nil =>
    intro st st2 h hd
    simp only [List.foldlM_nil] at h
    rcases hd with hf | ⟨y, hy, _⟩
    · exact Option.some.inj h ▸ hf
    · exact absurd hy (by simp)
  | cons l rest ih =>
    intro st st2 h hd
    rw [List.foldlM_cons] at h
    cases hs : rndStep st l with
    | none =>
      rw [hs] at h
      have h2 : (none : Option RndState) = some st2 := h
      exact Option.noConfusion h2
    | some st1 =>
      rw [hs] at h
      have h2 : rest.foldlM rndStep st1 = some st2 := h
      rcases hd with hf | ⟨y, hy, hm⟩
      · exact ih st1 st2 h2 (Or.inl (rndStep_finished hs (Or.inl hf)))
      · rcases List.mem_cons.mp hy with hy1 | hy2
        · subst hy1
          exact ih st1 st2 h2 (Or.inl (rndStep_finished hs (Or.inr hm)))
        · exact ih st1 st2 h2 (Or.inr ⟨y, hy2, hm⟩)

theorem rndStep_fatal {st : RndState} {l : Line}
    (hf : st.finished_land = true)
    (hrnd : containsSub (lc "rnd") l = true)
    (hnd : eqIgnoreAsciiCase l (lc "#EXTRACT_RND") = false)
    (hbad : rndFatalCheck l = none) :
    rndStep st l = none := by
  unfold rndStep
  simp only [hnd, hf, hrnd]
  cases hx : extract_random_line l with
  | none => rfl
  | some tri =>
    obtain ⟨instruction, mn, mx⟩ := tri
    unfold rndFatalCheck at hbad
    rw [hx] at hbad
    have hbad2 : (if mn < mx then some () else (none : Option Unit)) = none :=
      hbad
    have hlt : ¬ mn < mx := by
      intro hlt
      rw [if_pos hlt] at hbad2
      exact Option.noConfusion hbad2
    have hdefs : prob_definitions st.label mn mx = none := by
      unfold prob_definitions
      rw [if_neg hlt]
    show (do
        let defs ← prob_definitions st.label mn mx
        let newLabel ← next_label (some st.label)
        some (RndState.mk (st.preamble ++ [defs])
          (st.body ++ [prob_conditional st.label instruction mn mx])
          newLabel true)) = none
    rw [hdefs]
    rfl


/-- C9: when the `#EXTRACT_RND` directive is present, every line after the
first line containing `"ELEVATION_GENERATION"` that contains the substring
`"rnd"` (and is not itself the directive, which is skipped) is parsed as an
`instruction rnd(min,max)` expression rather than passed through: if the
parse fails (missing space, `(`, `,` or `)`, unparsable `u32` bounds, or
`min ≥ max`), the whole pass fails fatally; if it succeeds, the line is
replaced by the conditional chain and the weighted block is appended to
the preamble. -/
theorem extract_rnd_post_land_rnd_lines :
    (∀ (pre : List Line) (line : Line) (post : List Line),
      (∃ d ∈ pre ++ line :: post,
        eqIgnoreAsciiCase d (lc "#EXTRACT_RND") = true) →
      (∃ y ∈ pre, containsSub (lc "ELEVATION_GENERATION") y = true) →
      containsSub (lc "rnd") line = true →
      eqIgnoreAsciiCase line (lc "#EXTRACT_RND") = false →
      rndFatalCheck line = none →
      extract_rnd (pre ++ line :: post) = none) ∧
    (∀ (st : RndState) (line instruction : Line) (mn mx : Nat)
        (newLabel : Line),
      st.finished_land = true →
      containsSub (lc "rnd") line = true →
      eqIgnoreAsciiCase line (lc "#EXTRACT_RND") = false →
      extract_random_line line = some (instruction, mn, mx) →
      mn < mx →
      next_label (some st.label) = some newLabel →
      ∃ defs, prob_definitions st.label mn mx = some defs ∧
        rndStep st line = some (RndState.mk (st.preamble ++ [defs])
          (st.body ++ [prob_conditional st.label instruction mn mx])
          newLabel st.finished_land)) := by
  constructor
  · intro pre line post hdir hmark hrnd hnd hbad
    unfold extract_rnd
    have hall : (pre ++ line :: post).all
        (fun l => !(eqIgnoreAsciiCase l (lc "#EXTRACT_RND"))) = false := by
      obtain ⟨d, hd1, hd2⟩ := hdir
      cases hae : (pre ++ line :: post).all
          (fun l => !(eqIgnoreAsciiCase l (lc "#EXTRACT_RND"))) with
      | false => rfl
      | true =>
        have := List.all_eq_true.mp hae d hd1
        rw [hd2] at this
        simp at this
    rw [hall]
    simp only [Bool.false_eq_true, if_false]
    have hfold : (pre ++ line :: post).foldlM rndStep ⟨[], [], lc "_A", false⟩
        = none := by
      rw [foldlM_option_append]
      cases hpre : pre.foldlM rndStep ⟨[], [], lc "_A", false⟩ with
      | none => rfl
      | some st =>
        have hf : st.finished_land = true :=
          foldRnd_finished pre _ st hpre (Or.inr hmark)
        show (line :: post).foldlM rndStep st = none
        rw [List.foldlM_cons]
        rw [rndStep_fatal hf hrnd hnd hbad]
        rfl
    rw [hfold]
    rfl
  · intro st line instruction mn mx newLabel hf hrnd hnd hx hlt hnl
    have hdefs2 : ∃ defs, prob_definitions st.label mn mx = some defs := by
      unfold prob_definitions
      rw [if_pos hlt]
      exact ⟨_, rfl⟩
    obtain ⟨defs, hdefs⟩ := hdefs2
    refine ⟨defs, hdefs, ?_⟩
    unfold rndStep
    simp only [hnd, hf, hrnd]
    rw [hx]
    have hred : (do
        let defs2 ← prob_definitions st.label mn mx
        let newLabel2 ← next_label (some st.label)
        some (RndState.mk (st.preamble ++ [defs2])
          (st.body ++ [prob_conditional st.label instruction mn mx])
          newLabel2 true)) = some (RndState.mk (st.preamble ++ [defs])
          (st.body ++ [prob_conditional st.label instruction mn mx])
          newLabel true) := by
      rw [hdefs, hnl]
      rfl
    exact hred

/-- Witness for C9: a script whose directive and land-generation marker
precede a malformed post-land `rnd` line (`"a rndx"` has no parentheses),
on which the pass fails fatally. -/
theorem extract_rnd_post_land_rnd_lines_w :
    extract_rnd [lc "#EXTRACT_RND", lc "x ELEVATION_GENERATION y",
      lc "a rndx"] = none := by
  have h := extract_rnd_post_land_rnd_lines.1
    [lc "#EXTRACT_RND", lc "x ELEVATION_GENERATION y"] (lc "a rndx") []
    ⟨lc "#EXTRACT_RND", by simp, by decide⟩
    ⟨lc "x ELEVATION_GENERATION y", by simp, by decide⟩
    (by decide) (by decide) (by decide)
  exact h
